import Mathlib

/-!
Shallow embedding of the dataset-splitting and label-indexing logic of
`original_dataset_loader.py` (class `OriginalDatasetLoader`) and of the
dataset-source selection logic of `scripts/train.py` (function `main`).

Python floats are modelled as rationals; Python `int()` as truncation
toward zero; the filesystem as a list of top-level entries (name,
is-directory flag, child names) in discovery order; Python dicts with
string keys as association lists with update-in-place semantics; the
`KeyError` raised by a failed dict subscript as `Option.none`.
-/

namespace TFKerasIC

/-- Python `int()` applied to a rational: truncation toward zero. -/
def pyInt (q : ℚ) : ℤ := if 0 ≤ q then ⌊q⌋ else -⌊-q⌋

/-- `tf.data.Dataset.take n` on a materialised dataset: a negative count takes
everything, otherwise the first `n` elements. -/
def tfTake (n : ℤ) (xs : List α) : List α := if n < 0 then xs else xs.take n.toNat

/-- `tf.data.Dataset.skip n` on a materialised dataset: a negative count skips
everything, otherwise drops the first `n` elements. -/
def tfSkip (n : ℤ) (xs : List α) : List α := if n < 0 then [] else xs.drop n.toNat

/-- A top-level entry of the dataset root directory: its name, whether it is a
directory, and (when a directory) the names of the entries inside it, in
discovery order. -/
structure FSEntry where
  name : String
  isDir : Bool
  children : List String
deriving DecidableEq, Repr

/-- `self._image_paths = [str(p) for p in self._data_root.glob('*/*')]`: every
entry two levels below the root, as a (parent-directory name, file name) pair,
in discovery order; `glob` only descends into directories. -/
def imagePaths (root : List FSEntry) : List (String × String) :=
  root.flatMap fun e => if e.isDir then e.children.map fun c => (e.name, c) else []

/-- `self._num_train_images = int(num_images * valid_per_train)`. -/
def numTrainImages (root : List FSEntry) (f : ℚ) : ℤ :=
  pyInt (((imagePaths root).length : ℚ) * f)

/-- Python string comparison, one code point at a time: lexicographic on the
character sequences. -/
def charListLe : List Char → List Char → Bool
  | [], _ => true
  | _ :: _, [] => false
  | a :: as, b :: bs => if a < b then true else if b < a then false else charListLe as bs

/-- Python `a <= b` on strings: code-point-lexicographic comparison. -/
def pyStrLe (a b : String) : Prop := charListLe a.data b.data = true

instance (a b : String) : Decidable (pyStrLe a b) :=
  inferInstanceAs (Decidable (charListLe a.data b.data = true))

/-- `sorted(item.name for item in self._data_root.glob('*/') if item.is_dir())`:
the lexicographically sorted names of the immediate subdirectories. -/
def labelNames (root : List FSEntry) : List String :=
  List.insertionSort pyStrLe ((root.filter fun e => e.isDir).map FSEntry.name)

/-- Lookup in `dict((name, index) for index, name in enumerate(names))` starting
from index `i`: a later duplicate key overwrites an earlier one, so the lookup
prefers the rightmost occurrence; an absent key is `none` (Python `KeyError`). -/
def dictIndexFrom : ℕ → List String → String → Option ℕ
  | _, [], _ => none
  | i, n :: rest, s =>
    match dictIndexFrom (i + 1) rest s with
    | some j => some j
    | none => if n = s then some i else none

/-- `label_to_index[s]` for `label_to_index = dict((name, index) for index, name
in enumerate(names))`. -/
def labelToIndex (names : List String) (s : String) : Option ℕ :=
  dictIndexFrom 0 names s

/-- `[label_to_index[pathlib.Path(path).parent.name] for path in image_paths]`:
the parent-directory name of a two-level image path is its first component;
a missing vocabulary key fails the whole comprehension (`KeyError`). -/
def imageLabels (vocab : List String) : List (String × String) → Option (List ℕ)
  | [] => some []
  | p :: ps =>
    match labelToIndex vocab p.1, imageLabels vocab ps with
    | some i, some rest => some (i :: rest)
    | _, _ => none

/-- A Python dict with string keys and integer values, as an insertion-ordered
association list without duplicate keys. -/
abbrev InfoDict := List (String × ℤ)

/-- `d.update({k: v})`: overwrite in place when the key is present, otherwise
append at the end (Python dicts preserve insertion order). -/
def dictUpdate (d : InfoDict) (k : String) (v : ℤ) : InfoDict :=
  if d.any fun p => p.1 = k then d.map fun p => if p.1 = k then (k, v) else p
  else d ++ [(k, v)]

/-- `d[k]` as an optional value. -/
def dictGet (d : InfoDict) (k : String) : Option ℤ := List.lookup k d

/-- `self._info` right after `__init__`: the three size keys, in insertion
order. -/
def initInfo (hs ws cs : ℤ) : InfoDict :=
  dictUpdate (dictUpdate (dictUpdate [] "hight_size" hs) "width_size" ws) "channel_size" cs

/-- The train image list produced by `_load_image_ds`:
`image_ds.take(self._num_train_images)`. -/
def trainImagePaths (root : List FSEntry) (f : ℚ) : List (String × String) :=
  tfTake (numTrainImages root f) (imagePaths root)

/-- The validation image list produced by `_load_image_ds`:
`image_ds.skip(self._num_train_images)`. -/
def validImagePaths (root : List FSEntry) (f : ℚ) : List (String × String) :=
  tfSkip (numTrainImages root f) (imagePaths root)

/-- The full (unsplit) label list computed by `_load_label_ds`, with the
vocabulary and the image list taken from the same directory snapshot. -/
def loadLabels (root : List FSEntry) : Option (List ℕ) :=
  imageLabels (labelNames root) (imagePaths root)

/-- `len(set(image_labels))`, the value stored under `"num_classes"`. -/
def numClasses (root : List FSEntry) : Option ℕ :=
  (loadLabels root).map fun ls => ls.toFinset.card

/-- The metadata dict returned by `load()` (a copy of `self._info` after
`_load_label_ds` added `"num_classes"`); `none` when the label lookup raised. -/
def loadInfo (root : List FSEntry) (hs ws cs : ℤ) : Option InfoDict :=
  (loadLabels root).map fun ls =>
    dictUpdate (initInfo hs ws cs) "num_classes" (ls.toFinset.card : ℤ)

/-- The two (image path, label) partitions returned by `load()`: images and
labels are split positionally at `_num_train_images` and zipped. -/
def loadPartitions (root : List FSEntry) (f : ℚ) :
    Option (List ((String × String) × ℕ) × List ((String × String) × ℕ)) :=
  (loadLabels root).map fun ls =>
    (List.zip (tfTake (numTrainImages root f) (imagePaths root))
       (tfTake (numTrainImages root f) ls),
     List.zip (tfSkip (numTrainImages root f) (imagePaths root))
       (tfSkip (numTrainImages root f) ls))

/-- Python truthiness of an optional string CLI argument. -/
def truthy : Option String → Bool
  | none => false
  | some s => !s.isEmpty

/-- Which branch `main()` in `train.py` takes when selecting the dataset
source. -/
inductive DatasetSource where
  | namedBenchmark
  | directoryLoader
  | configError
deriving DecidableEq, Repr

/-- `if dataset_name: ... elif original_dataset_path: ... else: raise
AssertionError(...)`. -/
def selectSource (datasetName originalDatasetPath : Option String) : DatasetSource :=
  if truthy datasetName then .namedBenchmark
  else if truthy originalDatasetPath then .directoryLoader
  else .configError

/-- `train_ratio = int((1 - valid_per_train) * 100)` in `train.py`. -/
def trainRatio (v : ℚ) : ℤ := pyInt ((1 - v) * 100)

/-- The parameter names accepted by `OriginalDatasetLoader.__init__`
(after `self`). -/
def loaderInitParams : List String :=
  ["dataset_path", "valid_per_train", "hight_size", "width_size", "channel_size"]

/-- The keyword-argument names `train.py` passes in its
`OriginalDatasetLoader(...)` call, beyond the two positional arguments. -/
def driverCallKeywords : List String := ["output_label_dict_path"]

/-- A Python call binds only if every keyword argument names a declared
parameter; otherwise it raises `TypeError` before the body runs. -/
def driverCallAccepted : Bool := driverCallKeywords.all fun k => loaderInitParams.contains k

/-- A heap of Python dict objects: the address of a dict is its index in the
cell list. Used to model which dict object `load()` hands back. -/
structure Heap where
  cells : List InfoDict
deriving DecidableEq, Repr

/-- Dereference a dict address. -/
def heapRead (h : Heap) (a : ℕ) : InfoDict := h.cells.getD a []

/-- Mutate the dict object at an address in place. -/
def heapWrite (h : Heap) (a : ℕ) (d : InfoDict) : Heap := ⟨h.cells.set a d⟩

/-- Allocate a fresh dict object, returning the new heap and its address. -/
def heapAlloc (h : Heap) (d : InfoDict) : Heap × ℕ := (⟨h.cells ++ [d]⟩, h.cells.length)

/-- The state of an `OriginalDatasetLoader` object: the image list and split
point frozen by `__init__`, and the address of its `_info` dict. -/
structure PyLoader where
  imagePaths : List (String × String)
  numTrainImages : ℤ
  infoAddr : ℕ
deriving DecidableEq, Repr

/-- `OriginalDatasetLoader(dataset_path, valid_per_train, ...)`: `__init__`
freezes the image list and the split point and allocates the `_info` dict. -/
def mkLoader (h : Heap) (root : List FSEntry) (f : ℚ) (hs ws cs : ℤ) : Heap × PyLoader :=
  let p := heapAlloc h (initInfo hs ws cs)
  (p.1, ⟨imagePaths root, pyInt (((imagePaths root).length : ℚ) * f), p.2⟩)

/-- `load()` with the heap explicit: `_load_label_ds` scans the directory
snapshot `root`, mutates `self._info` in place to add `"num_classes"`, and the
returned metadata is `self._info.copy()` — a freshly allocated object whose
address is returned; `none` when the label lookup raises `KeyError`. -/
def loadS (h : Heap) (ld : PyLoader) (root : List FSEntry) : Option (ℕ × Heap) :=
  match imageLabels (labelNames root) ld.imagePaths with
  | none => none
  | some ls =>
    let h1 := heapWrite h ld.infoAddr
      (dictUpdate (heapRead h ld.infoAddr) "num_classes" (ls.toFinset.card : ℤ))
    let p := heapAlloc h1 (heapRead h1 ld.infoAddr)
    some (p.2, p.1)

/-- The `catsdogs` scenario of the spec: `cat/{a.jpg,b.jpg}` and `dog/{c.jpg}`. -/
def demoRoot : List FSEntry :=
  [⟨"cat", true, ["a.jpg", "b.jpg"]⟩, ⟨"dog", true, ["c.jpg"]⟩]

/-- The same tree enumerated in the opposite order. -/
def demoRootRev : List FSEntry :=
  [⟨"dog", true, ["c.jpg"]⟩, ⟨"cat", true, ["a.jpg", "b.jpg"]⟩]

/-- A tree whose `empty` label directory contributes zero images. -/
def demoRootEmptyLabel : List FSEntry :=
  [⟨"cat", true, ["a.jpg"]⟩, ⟨"empty", true, []⟩]

/-- A root whose single label directory holds one hundred images. -/
def demoRoot100 : List FSEntry :=
  [⟨"cat", true, (List.range 100).map fun n => toString n⟩]

/-- A one-cell heap holding the `_info` dict of a fresh loader. -/
def demoHeap : Heap := ⟨[initInfo 256 256 3]⟩

/-- The loader `OriginalDatasetLoader` builds on `demoRoot` with fraction
`2/3`: three images, split point `2`, `_info` at address `0`. -/
def demoLoader : PyLoader := ⟨imagePaths demoRoot, 2, 0⟩

/-- The metadata dict `load()` produces on `demoRoot`. -/
def demoDict : InfoDict :=
  [("hight_size", 256), ("width_size", 256), ("channel_size", 3), ("num_classes", 2)]

/-- The heap after one `load()` on `demoLoader`: the mutated `_info` at
address `0` and its copy at address `1`. -/
def demoHeap1 : Heap := ⟨[demoDict, demoDict]⟩

/-- Python `int()` agrees with the mathematical floor on nonnegative input. -/
theorem pyInt_of_nonneg {q : ℚ} (h : 0 ≤ q) : pyInt q = ⌊q⌋ := if_pos h

/-- `Dataset.take` with a nonnegative count is `List.take`. -/
theorem tfTake_of_nonneg {α : Type} {n : ℤ} (h : 0 ≤ n) (xs : List α) :
    tfTake n xs = xs.take n.toNat := if_neg (not_lt.mpr h)

/-- `Dataset.skip` with a nonnegative count is `List.drop`. -/
theorem tfSkip_of_nonneg {α : Type} {n : ℤ} (h : 0 ≤ n) (xs : List α) :
    tfSkip n xs = xs.drop n.toNat := if_neg (not_lt.mpr h)

/-- The boolean code-point comparison agrees with lexicographic order: it holds
exactly when the reversed pair is not `Lex`-smaller. -/
theorem charListLe_iff : ∀ as bs : List Char, charListLe as bs = true ↔
    ¬ List.Lex (· < ·) bs as := by
  intro as
  induction as with
  | nil =>
    intro bs
    simp [charListLe, List.Lex.not_nil_right]
  | cons a as ih =>
    intro bs
    cases bs with
    | nil =>
      simp only [charListLe, Bool.false_eq_true, false_iff, not_not]
      exact List.Lex.nil
    | cons b bs =>
      by_cases hab : a < b
      · simp only [charListLe, if_pos hab, true_iff]
        intro hlex
        cases hlex with
        | rel h' => exact absurd h' (lt_asymm hab)
        | cons h' => exact lt_irrefl _ hab
      · by_cases hba : b < a
        · simp only [charListLe, if_neg hab, if_pos hba, Bool.false_eq_true, false_iff, not_not]
          exact List.Lex.rel hba
        · have heq : a = b := le_antisymm (not_lt.mp hba) (not_lt.mp hab)
          subst heq
          simp only [charListLe, if_neg hab, if_neg hba]
          rw [List.Lex.cons_iff]
          exact ih bs

/-- `pyStrLe` is the standard linear order on strings. -/
theorem pyStrLe_iff_le (a b : String) : pyStrLe a b ↔ a ≤ b := by
  rw [pyStrLe, charListLe_iff, String.le_iff_toList_le, ← not_lt]
  exact Iff.rfl

/-- A dict lookup misses exactly when the key occurs nowhere. -/
theorem dictIndexFrom_eq_none {names : List String} {s : String} :
    ∀ {i : ℕ}, dictIndexFrom i names s = none ↔ s ∉ names := by
  induction names with
  | nil => intro i; simp [dictIndexFrom]
  | cons n rest ih =>
    intro i
    simp only [dictIndexFrom, List.mem_cons]
    cases hrec : dictIndexFrom (i + 1) rest s with
    | some j =>
      have : s ∈ rest := by
        by_contra hmem
        rw [ih.mpr hmem] at hrec
        exact Option.noConfusion hrec
      simp [this]
    | none =>
      have hmem : s ∉ rest := ih.mp hrec
      by_cases hne : n = s
      · simp [hne]
      · have hne' : ¬ s = n := fun h => hne h.symm
        simp [hne, hne', hmem]

/-- A successful dict lookup returns an index within the enumeration range. -/
theorem dictIndexFrom_some_lt {names : List String} {s : String} :
    ∀ {i j : ℕ}, dictIndexFrom i names s = some j → j < i + names.length := by
  induction names with
  | nil => intro i j h; exact Option.noConfusion h
  | cons n rest ih =>
    intro i j h
    simp only [dictIndexFrom] at h
    cases hrec : dictIndexFrom (i + 1) rest s with
    | some k =>
      rw [hrec] at h
      cases h
      have hk := ih hrec
      simp only [List.length_cons]
      omega
    | none =>
      rw [hrec] at h
      by_cases hne : n = s
      · rw [if_pos hne] at h
        cases h
        simp only [List.length_cons]
        omega
      · rw [if_neg hne] at h
        exact Option.noConfusion h

/-- On a duplicate-free key list, the dict maps the `i`-th key to index
`start + i`. -/
theorem dictIndexFrom_get {names : List String} (hnd : names.Nodup) :
    ∀ (k i : ℕ) (h : i < names.length),
      dictIndexFrom k names (names.get ⟨i, h⟩) = some (k + i) := by
  induction names with
  | nil => intro k i h; exact absurd h (Nat.not_lt_zero i)
  | cons n rest ih =>
    intro k i h
    cases i with
    | zero =>
      have hn : n ∉ rest := (List.nodup_cons.mp hnd).1
      have hnone : dictIndexFrom (k + 1) rest n = none := dictIndexFrom_eq_none.mpr hn
      simp [List.get, dictIndexFrom, hnone]
    | succ m =>
      have hm : m < rest.length := Nat.lt_of_succ_lt_succ h
      have hrec := ih (List.nodup_cons.mp hnd).2 (k + 1) m hm
      simp only [List.get, dictIndexFrom, hrec]
      congr 1
      omega

/-- `labelToIndex` misses exactly the names outside the vocabulary. -/
theorem labelToIndex_eq_none {names : List String} {s : String} :
    labelToIndex names s = none ↔ s ∉ names :=
  dictIndexFrom_eq_none

/-- A successful `labelToIndex` lookup is below the vocabulary size. -/
theorem labelToIndex_some_lt {names : List String} {s : String} {j : ℕ}
    (h : labelToIndex names s = some j) : j < names.length := by
  have := dictIndexFrom_some_lt h
  simpa using this

/-- The label comprehension fails exactly when some image's parent directory
name is missing from the vocabulary. -/
theorem imageLabels_eq_none {vocab : List String} :
    ∀ {paths : List (String × String)},
      imageLabels vocab paths = none ↔ ∃ p ∈ paths, p.1 ∉ vocab := by
  intro paths
  induction paths with
  | nil => simp [imageLabels]
  | cons p ps ih =>
    cases hl : labelToIndex vocab p.1 with
    | none =>
      have hp : p.1 ∉ vocab := labelToIndex_eq_none.mp hl
      simp only [imageLabels, hl]
      cases hr : imageLabels vocab ps <;> simp [hp]
    | some i =>
      have hp : ¬ p.1 ∉ vocab := by
        intro hmem
        rw [labelToIndex_eq_none.mpr hmem] at hl
        exact Option.noConfusion hl
      cases hr : imageLabels vocab ps with
      | none => simp [imageLabels, hl, hr, ih.mp hr]
      | some ls =>
        have : ¬ ∃ p ∈ ps, p.1 ∉ vocab := fun hex => Option.noConfusion (ih.mpr hex ▸ hr)
        simp only [imageLabels, hl, hr, List.mem_cons]
        simp only [List.mem_cons] at this ⊢
        constructor
        · intro h; exact Option.noConfusion h
        · rintro ⟨q, hq | hq, hnq⟩
          · exact absurd (hq ▸ hnq) hp
          · exact absurd ⟨q, hq, hnq⟩ this

/-- A successful label comprehension assigns every image, in order, the index
its parent looks up to: nothing is skipped or defaulted. -/
theorem imageLabels_some_spec {vocab : List String} :
    ∀ {paths : List (String × String)} {ls : List ℕ},
      imageLabels vocab paths = some ls →
        ls.length = paths.length ∧
        ∀ i (hp : i < paths.length) (hl : i < ls.length),
          labelToIndex vocab (paths.get ⟨i, hp⟩).1 = some (ls.get ⟨i, hl⟩) := by
  intro paths
  induction paths with
  | nil =>
    intro ls h
    simp only [imageLabels] at h
    cases h
    exact ⟨rfl, fun i hp _ => absurd hp (Nat.not_lt_zero i)⟩
  | cons p ps ih =>
    intro ls h
    simp only [imageLabels] at h
    cases hl : labelToIndex vocab p.1 with
    | none => rw [hl] at h; exact Option.noConfusion h
    | some j =>
      rw [hl] at h
      cases hr : imageLabels vocab ps with
      | none => rw [hr] at h; exact Option.noConfusion h
      | some rest =>
        rw [hr] at h
        cases h
        obtain ⟨hlen, hpt⟩ := ih hr
        refine ⟨by simp [hlen], ?_⟩
        intro i hp hli
        cases i with
        | zero => simpa [List.get] using hl
        | succ m =>
          have hm : m < ps.length := Nat.lt_of_succ_lt_succ hp
          have hml : m < rest.length := Nat.lt_of_succ_lt_succ hli
          simpa [List.get] using hpt m hm hml

/-- A label occurs in a successful label list exactly when some enumerated
image looks up to it. -/
theorem imageLabels_mem {vocab : List String} :
    ∀ {paths : List (String × String)} {ls : List ℕ},
      imageLabels vocab paths = some ls →
        ∀ j, (j ∈ ls ↔ ∃ p ∈ paths, labelToIndex vocab p.1 = some j) := by
  intro paths
  induction paths with
  | nil =>
    intro ls h j
    simp only [imageLabels] at h
    cases h
    simp
  | cons p ps ih =>
    intro ls h j
    simp only [imageLabels] at h
    cases hl : labelToIndex vocab p.1 with
    | none => rw [hl] at h; exact Option.noConfusion h
    | some i =>
      rw [hl] at h
      cases hr : imageLabels vocab ps with
      | none => rw [hr] at h; exact Option.noConfusion h
      | some rest =>
        rw [hr] at h
        cases h
        have hmem := ih hr
        constructor
        · intro hj
          rcases List.mem_cons.mp hj with hj | hj
          · exact ⟨p, List.mem_cons_self p ps, hj ▸ hl⟩
          · obtain ⟨q, hq, hql⟩ := (hmem j).mp hj
            exact ⟨q, List.mem_cons_of_mem p hq, hql⟩
        · rintro ⟨q, hq, hql⟩
          rcases List.mem_cons.mp hq with hq | hq
          · rw [hq] at hql
            rw [hl] at hql
            cases hql
            exact List.mem_cons_self _ _
          · exact List.mem_cons_of_mem i ((hmem j).mpr ⟨q, hq, hql⟩)

/-- Updating a dict with a key none of its entries carries appends the pair. -/
theorem dictUpdate_of_not_mem {d : InfoDict} {k : String} (h : ∀ p ∈ d, p.1 ≠ k) (v : ℤ) :
    dictUpdate d k v = d ++ [(k, v)] := by
  rw [dictUpdate, if_neg]
  simp only [List.any_eq_true, decide_eq_true_eq, not_exists]
  exact fun p hp => h p hp.1 hp.2

/-- Repeating a dict update with the same key and value changes nothing. -/
theorem dictUpdate_idem (d : InfoDict) (k : String) (v : ℤ) :
    dictUpdate (dictUpdate d k v) k v = dictUpdate d k v := by
  by_cases h : ∃ p ∈ d, p.1 = k
  · have hb : (d.any fun p => p.1 = k) = true := by
      simp only [List.any_eq_true, decide_eq_true_eq]
      exact h
    have hd : dictUpdate d k v = d.map fun p => if p.1 = k then (k, v) else p := by
      rw [dictUpdate, if_pos hb]
    obtain ⟨q, hq, hqk⟩ := h
    have hmem : (k, v) ∈ dictUpdate d k v := by
      rw [hd]
      exact List.mem_map.mpr ⟨q, hq, by simp [hqk]⟩
    have hb2 : ((dictUpdate d k v).any fun p => p.1 = k) = true := by
      simp only [List.any_eq_true, decide_eq_true_eq]
      exact ⟨(k, v), hmem, rfl⟩
    rw [dictUpdate, if_pos hb2, hd, List.map_map]
    apply List.map_congr_left
    intro p _
    by_cases hp : p.1 = k <;> simp [hp]
  · have hb : ¬ (d.any fun p => p.1 = k) = true := by
      simp only [List.any_eq_true, decide_eq_true_eq]
      exact h
    have hd : dictUpdate d k v = d ++ [(k, v)] := by rw [dictUpdate, if_neg hb]
    have hb2 : ((d ++ [(k, v)]).any fun p => p.1 = k) = true := by
      simp only [List.any_eq_true, decide_eq_true_eq]
      exact ⟨(k, v), by simp, rfl⟩
    rw [hd, dictUpdate, if_pos hb2, List.map_append]
    have hleft : (d.map fun p => if p.1 = k then (k, v) else p) = d := by
      conv_rhs => rw [← List.map_id d]
      apply List.map_congr_left
      intro p hp
      have : ¬ p.1 = k := fun hk => h ⟨p, hp, hk⟩
      simp [this]
    rw [hleft]
    simp

/-- Reading back a freshly written cell. -/
theorem heapRead_heapWrite_self {h : Heap} {a : ℕ} (ha : a < h.cells.length) (d : InfoDict) :
    heapRead (heapWrite h a d) a = d := by
  simp [heapRead, heapWrite, List.getD_eq_getElem?_getD, List.getElem?_set_self ha]

/-- Writing one cell leaves every other cell unchanged. -/
theorem heapRead_heapWrite_ne {h : Heap} {a b : ℕ} (hab : a ≠ b) (d : InfoDict) :
    heapRead (heapWrite h a d) b = heapRead h b := by
  simp [heapRead, heapWrite, List.getD_eq_getElem?_getD, List.getElem?_set_ne hab]

/-- Allocation leaves the existing cells readable unchanged. -/
theorem heapRead_extend {h : Heap} {a : ℕ} (ha : a < h.cells.length) (d : InfoDict) :
    heapRead ⟨h.cells ++ [d]⟩ a = heapRead h a := by
  simp [heapRead, List.getD_eq_getElem?_getD, List.getElem?_append_left ha]

/-- Reading the freshly allocated cell gives the stored dict. -/
theorem heapRead_last (h : Heap) (d : InfoDict) :
    heapRead ⟨h.cells ++ [d]⟩ h.cells.length = d := by
  simp [heapRead, List.getD_eq_getElem?_getD]

/-- C1: for every directory tree with `N` enumerated images and every fraction
`f` in `[0, 1]`, the loader computes `num_train = ⌊N * f⌋`, the train partition
is exactly the images at positions `[0, num_train)` in path-enumeration order,
the validation partition is exactly the images at positions `[num_train, N)`,
and the partition sizes add up to `N` (with the train partition of size
exactly `num_train`). -/
theorem c1_positional_split (root : List FSEntry) (f : ℚ)
    (h0 : 0 ≤ f) (h1 : f ≤ 1) :
    numTrainImages root f = ⌊((imagePaths root).length : ℚ) * f⌋ ∧
    trainImagePaths root f = (imagePaths root).take (numTrainImages root f).toNat ∧
    validImagePaths root f = (imagePaths root).drop (numTrainImages root f).toNat ∧
    (trainImagePaths root f).length = (numTrainImages root f).toNat ∧
    (trainImagePaths root f).length + (validImagePaths root f).length
      = (imagePaths root).length := by
  have hN : (0 : ℚ) ≤ ((imagePaths root).length : ℚ) := Nat.cast_nonneg _
  have hprod : (0 : ℚ) ≤ ((imagePaths root).length : ℚ) * f := mul_nonneg hN h0
  have hfloor : numTrainImages root f = ⌊((imagePaths root).length : ℚ) * f⌋ :=
    pyInt_of_nonneg hprod
  have hnonneg : 0 ≤ numTrainImages root f := by
    rw [hfloor]
    exact Int.floor_nonneg.mpr hprod
  have hle : (numTrainImages root f).toNat ≤ (imagePaths root).length := by
    have hmul : ((imagePaths root).length : ℚ) * f ≤ ((imagePaths root).length : ℚ) :=
      mul_le_of_le_one_right hN h1
    have h2 : ⌊((imagePaths root).length : ℚ) * f⌋ ≤ ((imagePaths root).length : ℤ) := by
      calc ⌊((imagePaths root).length : ℚ) * f⌋
          ≤ ⌊((imagePaths root).length : ℚ)⌋ := Int.floor_le_floor hmul
        _ = ((imagePaths root).length : ℤ) := Int.floor_natCast _
    rw [hfloor]
    omega
  refine ⟨hfloor, tfTake_of_nonneg hnonneg _, tfSkip_of_nonneg hnonneg _, ?_, ?_⟩
  · rw [trainImagePaths, tfTake_of_nonneg hnonneg, List.length_take]
    exact Nat.min_eq_left hle
  · rw [trainImagePaths, validImagePaths, tfTake_of_nonneg hnonneg, tfSkip_of_nonneg hnonneg,
      List.length_take, List.length_drop]
    omega

/-- C1 witness: the catsdogs tree with fraction `67/100` — the partition
lengths add up to the total image count. -/
theorem c1_positional_split_witness :
    (0 ≤ mkRat 67 100 ∧ mkRat 67 100 ≤ 1) ∧
    (trainImagePaths demoRoot (mkRat 67 100)).length
      + (validImagePaths demoRoot (mkRat 67 100)).length
      = (imagePaths demoRoot).length :=
  ⟨⟨by norm_num [Rat.mkRat_eq_div], by norm_num [Rat.mkRat_eq_div]⟩,
    (c1_positional_split demoRoot (mkRat 67 100) (by norm_num [Rat.mkRat_eq_div])
      (by norm_num [Rat.mkRat_eq_div])).2.2.2.2⟩

/-- C2: the label vocabulary is the sorted (lexicographically, and hence
duplicate-free) list of immediate subdirectory names; each name maps to its
zero-based position in sorted order; and any re-enumeration of the same tree
(a permutation of its entries) yields the identical vocabulary. -/
theorem c2_label_vocabulary (root : List FSEntry)
    (hnd : ((root.filter fun e => e.isDir).map FSEntry.name).Nodup) :
    (labelNames root).Sorted (· ≤ ·) ∧
    (∀ s, s ∈ labelNames root ↔ s ∈ (root.filter fun e => e.isDir).map FSEntry.name) ∧
    (∀ i (h : i < (labelNames root).length),
      labelToIndex (labelNames root) ((labelNames root).get ⟨i, h⟩) = some i) ∧
    (∀ root' : List FSEntry, root.Perm root' → labelNames root = labelNames root') := by
  haveI htrans : IsTrans String pyStrLe := ⟨fun a b c hab hbc =>
    (pyStrLe_iff_le a c).mpr
      (le_trans ((pyStrLe_iff_le a b).mp hab) ((pyStrLe_iff_le b c).mp hbc))⟩
  haveI htotal : IsTotal String pyStrLe := ⟨fun a b => by
    rcases le_total a b with h | h
    · exact Or.inl ((pyStrLe_iff_le a b).mpr h)
    · exact Or.inr ((pyStrLe_iff_le b a).mpr h)⟩
  haveI hanti : IsAntisymm String pyStrLe := ⟨fun a b hab hba =>
    le_antisymm ((pyStrLe_iff_le a b).mp hab) ((pyStrLe_iff_le b a).mp hba)⟩
  refine ⟨?_, ?_, ?_, ?_⟩
  · exact (List.sorted_insertionSort pyStrLe _).imp fun h => (pyStrLe_iff_le _ _).mp h
  · intro s
    exact List.mem_insertionSort pyStrLe
  · intro i h
    have hnodup : (labelNames root).Nodup :=
      ((List.perm_insertionSort pyStrLe _).nodup_iff).mpr hnd
    simpa [labelToIndex] using dictIndexFrom_get hnodup 0 i h
  · intro root' hperm
    have hp : ((root.filter fun e => e.isDir).map FSEntry.name).Perm
        ((root'.filter fun e => e.isDir).map FSEntry.name) :=
      (hperm.filter _).map _
    exact List.eq_of_perm_of_sorted
      ((List.perm_insertionSort pyStrLe _).trans
        (hp.trans (List.perm_insertionSort pyStrLe _).symm))
      (List.sorted_insertionSort pyStrLe _) (List.sorted_insertionSort pyStrLe _)

/-- C2 witness: enumerating the catsdogs tree in either order yields the same
vocabulary. -/
theorem c2_label_vocabulary_witness :
    labelNames demoRoot = labelNames demoRootRev :=
  (c2_label_vocabulary demoRoot (by decide)).2.2.2 demoRootRev (by decide)

/-- C3: when loading succeeds, `num_classes` is the number of distinct label
indices assigned to at least one enumerated image of the full unsplit list;
and there is a tree (one with an image-less label directory) where this count
is strictly below the vocabulary size. -/
theorem c3_num_classes_from_assigned (root : List FSEntry) :
    (∀ ls, loadLabels root = some ls →
      numClasses root = some (((Finset.range (labelNames root).length).filter fun j =>
        ∃ p ∈ imagePaths root, labelToIndex (labelNames root) p.1 = some j).card)) ∧
    (∃ r : List FSEntry, ∃ n, numClasses r = some n ∧ n < (labelNames r).length) := by
  constructor
  · intro ls hls
    have hmem := imageLabels_mem hls
    have hset : ls.toFinset = (Finset.range (labelNames root).length).filter fun j =>
        ∃ p ∈ imagePaths root, labelToIndex (labelNames root) p.1 = some j := by
      ext j
      simp only [List.mem_toFinset, Finset.mem_filter, Finset.mem_range]
      constructor
      · intro hj
        obtain ⟨p, hp, hpl⟩ := (hmem j).mp hj
        exact ⟨labelToIndex_some_lt hpl, p, hp, hpl⟩
      · rintro ⟨-, p, hp, hpl⟩
        exact (hmem j).mpr ⟨p, hp, hpl⟩
    simp only [numClasses, hls, Option.map_some']
    rw [hset]
  · exact ⟨demoRootEmptyLabel, 1, by decide, by decide⟩

/-- C3 witness: on the tree with an empty `empty` label directory the recorded
class count is the count of indices actually assigned (here `1`, below the
vocabulary size `2`). -/
theorem c3_num_classes_from_assigned_witness :
    numClasses demoRootEmptyLabel
      = some (((Finset.range (labelNames demoRootEmptyLabel).length).filter fun j =>
        ∃ p ∈ imagePaths demoRootEmptyLabel,
          labelToIndex (labelNames demoRootEmptyLabel) p.1 = some j).card) :=
  (c3_num_classes_from_assigned demoRootEmptyLabel).1 [0] (by decide)

/-- `Dataset.take` of an empty dataset is empty whatever the count. -/
theorem tfTake_nil {α : Type} (n : ℤ) : tfTake n ([] : List α) = [] := by
  simp [tfTake]

/-- `Dataset.skip` of an empty dataset is empty whatever the count. -/
theorem tfSkip_nil {α : Type} (n : ℤ) : tfSkip n ([] : List α) = [] := by
  simp [tfSkip]

/-- C4 (amended): the metadata record returned by `load()` carries integer
values for exactly four keys — `hight_size`, `width_size`, `channel_size`,
`num_classes` — and no `num_train` entry; the split count lives only in the
loader attribute `_num_train_images`. -/
theorem c4_info_keys (root : List FSEntry) (hs ws cs : ℤ) :
    ∀ d, loadInfo root hs ws cs = some d →
      d.map Prod.fst = ["hight_size", "width_size", "channel_size", "num_classes"] ∧
      dictGet d "num_train" = none := by
  intro d hd
  rw [loadInfo] at hd
  cases hls : loadLabels root with
  | none => rw [hls] at hd; exact Option.noConfusion hd
  | some ls =>
    rw [hls, Option.map_some'] at hd
    cases hd
    exact ⟨rfl, rfl⟩

/-- C4 counterexample: on the catsdogs tree the metadata record returned by
`load()` has exactly the four keys `hight_size`, `width_size`, `channel_size`,
`num_classes`; a lookup of `num_train` misses, refuting the claim that the
record carries five integer entries including `num_train`. -/
theorem c4_info_keys_counterexample :
    (loadInfo demoRoot 256 256 3).map (fun d => dictGet d "num_train") = some none ∧
    (loadInfo demoRoot 256 256 3).map (fun d => d.map Prod.fst)
      = some ["hight_size", "width_size", "channel_size", "num_classes"] :=
  ⟨by decide, by decide⟩

/-- C4 witness: the amended statement at the catsdogs tree's concrete metadata
record. -/
theorem c4_info_keys_witness :
    demoDict.map Prod.fst = ["hight_size", "width_size", "channel_size", "num_classes"] ∧
    dictGet demoDict "num_train" = none :=
  c4_info_keys demoRoot 256 256 3 demoDict (by decide)

/-- C5: `train.py` passes the keyword argument `output_label_dict_path` to
`OriginalDatasetLoader(...)`, but `__init__` declares no such parameter, so the
call raises `TypeError` instead of constructing the loader — the driver's
directory branch cannot succeed as written. -/
theorem c5_driver_call_rejected :
    driverCallAccepted = false ∧ "output_label_dict_path" ∉ loaderInitParams :=
  ⟨by decide, by decide⟩

/-- C6: the loader derives each image's label by looking up its parent
directory name; the label pass fails (a `KeyError`) exactly when some image's
parent name is absent from the vocabulary, and on success every image gets the
index its parent looks up to — never skipped, never defaulted. -/
theorem c6_lookup_fail_fast (vocab : List String) (paths : List (String × String)) :
    (imageLabels vocab paths = none ↔ ∃ p ∈ paths, p.1 ∉ vocab) ∧
    ∀ ls, imageLabels vocab paths = some ls →
      ls.length = paths.length ∧
      ∀ i (hp : i < paths.length) (hl : i < ls.length),
        labelToIndex vocab (paths.get ⟨i, hp⟩).1 = some (ls.get ⟨i, hl⟩) :=
  ⟨imageLabels_eq_none, fun _ h => imageLabels_some_spec h⟩

/-- C6 witness: an image under `dog` with vocabulary `["cat"]` makes the label
pass fail with a lookup error. -/
theorem c6_lookup_fail_fast_witness :
    imageLabels ["cat"] [("dog", "x.jpg")] = none :=
  (c6_lookup_fail_fast ["cat"] [("dog", "x.jpg")]).1.mpr
    ⟨("dog", "x.jpg"), by decide, by decide⟩

/-- C7 counterexample: when both a dataset name and a directory path are
supplied (both truthy), the driver raises no configuration error — the
named-benchmark branch is silently taken, refuting the claim that giving both
sources is fatal. -/
theorem c7_both_sources_counterexample :
    truthy (some "mnist") = true ∧ truthy (some "datasets/catsdogs") = true ∧
    selectSource (some "mnist") (some "datasets/catsdogs") ≠ DatasetSource.configError ∧
    selectSource (some "mnist") (some "datasets/catsdogs") = DatasetSource.namedBenchmark :=
  ⟨by decide, by decide, by decide, by decide⟩

/-- C7 (amended): if neither dataset source is given the driver fails with a
fatal configuration error (`AssertionError`) before any dataset loading or
training work; but if both are given, the named-benchmark branch silently
takes precedence and no error is raised. -/
theorem c7_source_selection (dn op : Option String) :
    (truthy dn = false → truthy op = false →
      selectSource dn op = DatasetSource.configError) ∧
    (truthy dn = true → selectSource dn op = DatasetSource.namedBenchmark) := by
  constructor
  · intro h1 h2
    simp [selectSource, h1, h2]
  · intro h1
    simp [selectSource, h1]

/-- C7 witness: the amended selection behaviour at concrete argument pairs. -/
theorem c7_source_selection_witness :
    selectSource none none = DatasetSource.configError ∧
    selectSource (some "mnist") (some "datasets/catsdogs")
      = DatasetSource.namedBenchmark :=
  ⟨(c7_source_selection none none).1 rfl rfl,
    (c7_source_selection (some "mnist") (some "datasets/catsdogs")).2 (by decide)⟩

/-- C8: on an empty root the loader completes without error: zero images,
`num_train = 0`, both returned partitions empty, and the metadata record is
still constructed, with `num_classes = 0`. -/
theorem c8_empty_root (f : ℚ) (hs ws cs : ℤ) :
    imagePaths [] = [] ∧
    numTrainImages [] f = 0 ∧
    loadPartitions [] f = some ([], []) ∧
    loadInfo [] hs ws cs = some (dictUpdate (initInfo hs ws cs) "num_classes" 0) ∧
    numClasses [] = some 0 := by
  have hnum : numTrainImages [] f = 0 := by
    simp [numTrainImages, imagePaths, pyInt]
  refine ⟨rfl, hnum, ?_, ?_, rfl⟩
  · simp [loadPartitions, loadLabels, imageLabels, imagePaths, tfTake_nil, tfSkip_nil]
  · simp [loadInfo, loadLabels, imageLabels, imagePaths]

/-- Summary of one successful `loadS` step: the returned metadata address is
the fresh top of the heap, the loader's `_info` cell and the returned copy both
hold the updated dict, and every other cell is untouched. -/
theorem loadS_spec {h : Heap} {ld : PyLoader} {root : List FSEntry} {ls : List ℕ}
    (him : imageLabels (labelNames root) ld.imagePaths = some ls)
    (hv : ld.infoAddr < h.cells.length) :
    ∃ a1 h1, loadS h ld root = some (a1, h1) ∧
      a1 = h.cells.length ∧
      h1.cells.length = h.cells.length + 1 ∧
      ld.infoAddr < h1.cells.length ∧
      heapRead h1 ld.infoAddr
        = dictUpdate (heapRead h ld.infoAddr) "num_classes" (ls.toFinset.card : ℤ) ∧
      heapRead h1 a1
        = dictUpdate (heapRead h ld.infoAddr) "num_classes" (ls.toFinset.card : ℤ) ∧
      ∀ b, b < h.cells.length → b ≠ ld.infoAddr → heapRead h1 b = heapRead h b := by
  have hwlen : ∀ d : InfoDict, (heapWrite h ld.infoAddr d).cells.length = h.cells.length := by
    intro d
    simp [heapWrite, List.length_set]
  set D := dictUpdate (heapRead h ld.infoAddr) "num_classes" (ls.toFinset.card : ℤ) with hD
  set hW := heapWrite h ld.infoAddr D with hWdef
  have hin : ld.infoAddr < hW.cells.length := by
    rw [hWdef, hwlen]
    exact hv
  refine ⟨hW.cells.length, ⟨hW.cells ++ [heapRead hW ld.infoAddr]⟩, ?_, ?_, ?_, ?_, ?_, ?_, ?_⟩
  · simp only [loadS, him, heapAlloc]
  · rw [hWdef]
    exact hwlen _
  · simp only [List.length_append, List.length_cons, List.length_nil, hWdef, hwlen]
  · simp only [List.length_append, List.length_cons, List.length_nil, hWdef, hwlen]
    omega
  · rw [heapRead_extend hin, hWdef, heapRead_heapWrite_self hv]
  · rw [heapRead_last hW (heapRead hW ld.infoAddr), hWdef, heapRead_heapWrite_self hv]
  · intro b hb hbne
    have hbin : b < hW.cells.length := by
      rw [hWdef, hwlen]
      exact hb
    rw [heapRead_extend hbin, hWdef, heapRead_heapWrite_ne (fun hc => hbne hc.symm)]

/-- C9: `load()` hands back a copy of the loader's `_info` dict: the returned
record lives at a fresh address distinct from `_info`, overwriting the
returned record leaves the loader's internal dict unchanged, and a second
`load()` on the same loader over the unchanged tree returns an equal metadata
record. -/
theorem c9_load_returns_copy (h0 : Heap) (ld : PyLoader) (root : List FSEntry)
    (hv : ld.infoAddr < h0.cells.length) :
    ∀ a1 h1, loadS h0 ld root = some (a1, h1) →
      a1 ≠ ld.infoAddr ∧
      (∀ d : InfoDict,
        heapRead (heapWrite h1 a1 d) ld.infoAddr = heapRead h1 ld.infoAddr) ∧
      (∃ a2 h2, loadS h1 ld root = some (a2, h2) ∧
        heapRead h2 a2 = heapRead h1 a1) := by
  intro a1 h1 hload
  cases him : imageLabels (labelNames root) ld.imagePaths with
  | none =>
    rw [show loadS h0 ld root = none by simp only [loadS, him]] at hload
    exact Option.noConfusion hload
  | some ls =>
    obtain ⟨a1', h1', hload', ha1, _, hvin, hinfo, hret, _⟩ := loadS_spec him hv
    rw [hload'] at hload
    injection hload with hpair
    cases hpair
    refine ⟨by omega, ?_, ?_⟩
    · intro d
      exact heapRead_heapWrite_ne (by omega) d
    · obtain ⟨a2, h2, hload2, _, _, _, _, hret2, _⟩ := loadS_spec him hvin
      refine ⟨a2, h2, hload2, ?_⟩
      rw [hret2, hinfo, dictUpdate_idem, hret]

/-- C9 witness: the catsdogs loader over a one-cell heap — the copy lands at
address `1`, distinct from `_info` at address `0`, and clobbering the copy
leaves the internal dict intact. -/
theorem c9_load_returns_copy_witness :
    demoLoader.infoAddr < demoHeap.cells.length ∧
    loadS demoHeap demoLoader demoRoot = some (1, demoHeap1) ∧
    (1 : ℕ) ≠ demoLoader.infoAddr ∧
    heapRead (heapWrite demoHeap1 1 []) demoLoader.infoAddr
      = heapRead demoHeap1 demoLoader.infoAddr :=
  ⟨by decide, by decide,
    ((c9_load_returns_copy demoHeap demoLoader demoRoot (by decide)) 1 demoHeap1
      (by decide)).1,
    ((c9_load_returns_copy demoHeap demoLoader demoRoot (by decide)) 1 demoHeap1
      (by decide)).2.1 []⟩

/-- C10: for the same `valid_per_train` value `v` the two dataset-source
branches split complementarily — the named-benchmark branch takes the first
`int((1 - v) * 100)` percent of the data as train while the directory branch
takes the first `⌊N·v⌋` images — so on a 100-image tree their train counts
differ whenever `v ≠ 1/2`: the sources are not interchangeable. -/
theorem c10_branches_not_interchangeable (root : List FSEntry) (v : ℚ)
    (hlen : (imagePaths root).length = 100)
    (h0 : 0 ≤ v) (h1 : v ≤ 1) (hne : v ≠ 1 / 2) :
    trainRatio v = pyInt ((1 - v) * 100) ∧
    numTrainImages root v = pyInt (100 * v) ∧
    trainRatio v ≠ numTrainImages root v := by
  have hnum : numTrainImages root v = pyInt (100 * v) := by
    rw [numTrainImages, hlen]
    norm_num
  refine ⟨rfl, hnum, ?_⟩
  rw [hnum]
  have hv100 : (0 : ℚ) ≤ 100 * v := by positivity
  have h1v : (0 : ℚ) ≤ (1 - v) * 100 := by nlinarith
  rw [trainRatio, pyInt_of_nonneg h1v, pyInt_of_nonneg hv100]
  intro heq
  have key : ⌊(1 - v) * 100⌋ = 100 - ⌈100 * v⌉ := by
    have hsplit : (1 - v) * 100 = -(100 * v - ((100 : ℤ) : ℚ)) := by
      push_cast
      ring
    rw [hsplit, Int.floor_neg, Int.ceil_sub_int]
    omega
  rw [key] at heq
  have hfc : ⌊100 * v⌋ ≤ ⌈100 * v⌉ := Int.floor_le_ceil _
  have hcf : ⌈100 * v⌉ ≤ ⌊100 * v⌋ + 1 := Int.ceil_le_floor_add_one _
  have hfl50 : ⌊100 * v⌋ = 50 := by omega
  have hcl50 : ⌈100 * v⌉ = 50 := by omega
  have hx1 : ((50 : ℤ) : ℚ) ≤ 100 * v := by
    have hq := Int.floor_le (100 * v)
    rw [hfl50] at hq
    exact_mod_cast hq
  have hx2 : 100 * v ≤ ((50 : ℤ) : ℚ) := by
    have hq := Int.le_ceil (100 * v)
    rw [hcl50] at hq
    exact_mod_cast hq
  apply hne
  have : (100 : ℚ) * v = 50 := le_antisymm (by exact_mod_cast hx2) (by exact_mod_cast hx1)
  linarith

/-- C10 witness: a 100-image tree with `v = 1` — the benchmark branch would
keep `int((1-1)*100) = 0` percent for train while the directory loader puts
all 100 images in train. -/
theorem c10_branches_not_interchangeable_witness :
    (imagePaths demoRoot100).length = 100 ∧
    (0 ≤ (1 : ℚ)) ∧ ((1 : ℚ) ≤ 1) ∧ ((1 : ℚ) ≠ 1 / 2) ∧
    trainRatio 1 ≠ numTrainImages demoRoot100 1 :=
  ⟨by decide, by norm_num, by norm_num, by norm_num,
    (c10_branches_not_interchangeable demoRoot100 1 (by decide) (by norm_num)
      (by norm_num) (by norm_num)).2.2⟩

end TFKerasIC

